import Mathlib

/-!
# c2cbw: core-to-core transfer benchmark

A shallow embedding of `src/c2cbw.cpp` and the properties checked against it.

* `measure_bw_loop`, `measure_bw_reduce`: the reduction at the end of `measure_bw`
  (source lines 93-99).
* `atoi`, `scan`, `main`: the argument scan and the usage branch of `main`
  (source lines 105-131).
* `stepSender`, `stepReceiver`: the loops of `sender_thread` (lines 44-59) and
  `receiver_thread` (lines 66-82) as two sequential processes interleaved over the
  shared task, with sequentially consistent flag accesses.
-/

namespace C2cbw

/-! ## The reduction of `measure_bw` -/

/-- Largest value of the 64-bit `rep` of `std::chrono::nanoseconds`
(`nanoseconds::max().count()`). -/
def INT64_MAX : Int := 2 ^ 63 - 1

/-- Smallest value of the 64-bit `rep` of `std::chrono::nanoseconds`. -/
def INT64_MIN : Int := -(2 ^ 63)

/-- Two's complement reduction of an integer to the signed 64-bit range. -/
def wrap64 (x : Int) : Int := (x + 2 ^ 63) % 2 ^ 64 - 2 ^ 63

/-- `std::min(a, b)`: `b` when `b < a`, otherwise `a`. -/
def stdMin (a b : Int) : Int := if b < a then b else a

/-- The loop of lines 95-98 run from the accumulators `(avg_time, min_time)`:
`avg_time += each_time; min_time = min(min_time, each_time);` for each sample. The
addition is that of the 64-bit count (two's complement). -/
def measure_bw_loop : List Int → Int × Int → Int × Int
  | [], acc => acc
  | each_time :: rest, (avg_time, min_time) =>
      measure_bw_loop rest (wrap64 (avg_time + each_time), stdMin min_time each_time)

/-- Lines 93-99 of `measure_bw`: both accumulators are initialised
(`nanoseconds::zero()`, `nanoseconds::max()`), the loop runs over `task.time`, and
`avg_time /= task.time.size()` is the integer division of the 64-bit count, which
truncates toward zero (a quotient by a positive count stays in the 64-bit range). A
division by a size of zero has no result. The value is `(avg_time, min_time)`. -/
def measure_bw_reduce (time : List Int) : Option (Int × Int) :=
  let r := measure_bw_loop time (0, INT64_MAX)
  if time.length = 0 then none
  else some (Int.tdiv r.1 (time.length : Int), r.2)

/-- The sum of the samples fits the 64-bit count. -/
def SumFits (time : List Int) : Prop :=
  INT64_MIN ≤ time.sum ∧ time.sum ≤ INT64_MAX

/-! ## The argument scan of `main` -/

/-- C `isspace` in the "C" locale: space, and the controls `\t \n \v \f \r`. -/
def isspace (ch : Char) : Bool := ch.toNat = 32 || (9 ≤ ch.toNat && ch.toNat ≤ 13)

/-- C `isdigit`: the characters `0` to `9`. -/
def isdigit (ch : Char) : Bool := 48 ≤ ch.toNat && ch.toNat ≤ 57

/-- The digit loop of `strtol` in base 10: consumes leading decimal digits, accumulating
their value, and stops at the first other character. -/
def atoiDigits : Nat → List Char → Nat
  | acc, [] => acc
  | acc, ch :: rest =>
      if isdigit ch then atoiDigits (acc * 10 + (ch.toNat - 48)) rest else acc

/-- Largest `long` of the LP64 platform the program builds for. -/
def LONG_MAX : Int := 2 ^ 63 - 1

/-- Smallest `long` of the LP64 platform the program builds for. -/
def LONG_MIN : Int := -(2 ^ 63)

/-- C library `strtol(s, NULL, 10)`: leading white space is skipped, an optional sign is
read, then the decimal digits; a value outside `long` is clamped to `LONG_MIN` or
`LONG_MAX`. -/
def strtol (s : List Char) : Int :=
  let v : Int :=
    match s.dropWhile isspace with
    | [] => 0
    | ch :: rest =>
        if ch = '-' then -(atoiDigits 0 rest : Int)
        else if ch = '+' then (atoiDigits 0 rest : Int)
        else (atoiDigits 0 (ch :: rest) : Int)
  max LONG_MIN (min v LONG_MAX)

/-- Conversion of an integer to the 32-bit `int` (two's complement). -/
def toInt32 (x : Int) : Int := (x + 2 ^ 31) % 2 ^ 32 - 2 ^ 31

/-- C library `atoi`, which is `(int) strtol(s, NULL, 10)`: the result is a 32-bit
`int` whatever the digits say. -/
def atoi (s : String) : Int := toInt32 (strtol s.data)

/-- Conversion of an `int` to the 64-bit `size_t` (the assignment `bulk_size = atoi(..)`). -/
def toSizeT (x : Int) : Nat := (x % 2 ^ 64).toNat

/-- The variables the scan of `main` assigns: the locals `src`, `dst` and the globals
`warm_up_sec`, `nr_sample` (both `int`) and `bulk_size` (`size_t`). -/
structure Conf where
  src : Int
  dst : Int
  warm_up_sec : Int
  nr_sample : Int
  bulk_size : Nat
deriving DecidableEq

/-- The values before the scan: `src = dst = -1` (lines 106-107) and the initialisers
of the globals (lines 12-14). -/
def Conf.initial : Conf :=
  { src := -1, dst := -1, warm_up_sec := 5, nr_sample := 1000, bulk_size := 8192 }

/-- One iteration of the scan loop (lines 109-123) with `a = argv[i]`, `b = argv[i+1]`. -/
def scanStep (st : Conf) (a b : String) : Conf :=
  if a = "-s" then { st with src := atoi b }
  else if a = "-d" then { st with dst := atoi b }
  else if a = "-sz" then { st with bulk_size := toSizeT (atoi b) }
  else if a = "-w" then { st with warm_up_sec := atoi b }
  else if a = "-ns" then { st with nr_sample := atoi b }
  else st

/-- The loop `for (int i=1;i+1<argc;i++)` over the arguments `argv[i], argv[i+1], ...`
that are still ahead: it advances by one argument at a time and stops when no
successor `argv[i+1]` is left. -/
def scan : List String → Conf → Conf
  | a :: b :: rest, st => scan (b :: rest) (scanStep st a b)
  | _, st => st

/-- The usage line of line 126, without the trailing newline. -/
def usageLine : String :=
  "c2cbw -s [SRC_CORE] -d [DST_CORE] -sz [BULK_SIZE default: 8192] -w [WARMUP_SEC default: 5] -ns [NR_SAMPLE default: 100]"

/-- Value of `EXIT_FAILURE` on the platform the program builds for. -/
def EXIT_FAILURE : Int := 1

/-- What `main` does after the scan. -/
inductive Outcome
  /-- Lines 126-127: the line is printed and the process exits with the status. -/
  | usage (line : String) (status : Int)
  /-- Line 129: `measure_bw(src, dst)` is invoked with the globals as scanned. -/
  | measure (conf : Conf)
deriving DecidableEq

/-- Lines 105-131 of `main` on `argv` (`argv[0]` is the program name, the scan starts
at index 1). -/
def main (argv : List String) : Outcome :=
  let st := scan argv.tail Conf.initial
  if st.src = -1 ∨ st.dst = -1 then Outcome.usage usageLine EXIT_FAILURE
  else Outcome.measure st

/-- The argument vector of a command line written as flag/value pairs, each value a
natural number in decimal. -/
def argvOfPairs (prog : String) (pairs : List (String × Nat)) : List String :=
  prog :: pairs.flatMap (fun p => [p.1, toString p.2])

/-- The value that follows the last occurrence of `flag` among the pairs, or `dflt`
when the flag does not occur. -/
def lastValue (flag : String) (pairs : List (String × Nat)) (dflt : Int) : Int :=
  match pairs.reverse.find? (fun p => p.1 = flag) with
  | some p => (p.2 : Int)
  | none => dflt

/-! ## The handshake of `sender_thread` and `receiver_thread` -/

/-- What the two loops are run with. `nr_sample` and `bulk_size` are the globals;
`rng k` is the `k`-th value (from 0) returned by the sender's `std::mt19937 rng`;
`now k` is the `k`-th reading (from 0), in nanoseconds, of
`std::chrono::steady_clock::now()` in the receiver's loop; `buffer0` is the content of
`new uint32_t[..]` when the threads start. -/
structure Cfg where
  nr_sample : Int
  bulk_size : Nat
  rng : Nat → Nat
  now : Nat → Int
  buffer0 : Nat → Nat

/-- The bound `bulk_size/sizeof(uint32_t)` of the inner loops (taken within `int`, so
that the counter `j` does not overflow). -/
def Cfg.words (c : Cfg) : Nat := c.bulk_size / 4

/-- Program points of the loop of `sender_thread` (lines 44-59). -/
inductive SPc
  /-- The test `i<nr_sample` of line 44. -/
  | loop
  /-- The inner loop of lines 45-47 with counter `j`. -/
  | fill (j : Nat)
  /-- The store `sender_ready.store(true)` of line 48. -/
  | signal
  /-- The spin `while (!receiver_ready.load())` of line 53. -/
  | wait
  /-- The store `receiver_ready.store(false)` of line 54 and the `i++`. -/
  | reset
  /-- The loop has been left. -/
  | done
deriving DecidableEq

/-- Program points of the loop of `receiver_thread` (lines 66-82). -/
inductive RPc
  /-- The test `i<nr_sample` of line 66. -/
  | loop
  /-- The spin `while (!sender_ready.load())` of line 67. -/
  | wait
  /-- The store `sender_ready.store(false)` of line 68. -/
  | reset
  /-- The reading `ts_start = steady_clock::now()` of line 73. -/
  | tsStart
  /-- The inner loop of line 74 with counter `j`. -/
  | read (j : Nat)
  /-- The reading `ts_end = steady_clock::now()` of line 75. -/
  | tsEnd
  /-- The `task->time.push_back(ts_end - ts_start)` of line 76. -/
  | push
  /-- The store `receiver_ready.store(true)` of line 77 and the `i++`. -/
  | signal
  /-- The loop has been left. -/
  | done
deriving DecidableEq

/-- The shared task (`sender_ready`, `receiver_ready`, `buffer`, `time`) and the locals
of the two threads: program point and loop counter `i` of each (`si`, `ri`), the number
of values drawn from the sender's `rng`, the receiver's `ts_start`, `ts_end` and the
number of clock readings it has made. -/
structure State where
  sender_ready : Bool
  receiver_ready : Bool
  buffer : Nat → Nat
  time : List Int
  spc : SPc
  si : Nat
  draws : Nat
  rpc : RPc
  ri : Nat
  ts_start : Int
  ts_end : Int
  ticks : Nat

/-- The state when both threads enter their loops: both flags false, no sample
recorded, both counters 0. (`pin_one_cpu` and `warm_up` run before and touch only
`task->magic`.) -/
def init (c : Cfg) : State :=
  { sender_ready := false, receiver_ready := false, buffer := c.buffer0, time := [],
    spc := SPc.loop, si := 0, draws := 0, rpc := RPc.loop, ri := 0,
    ts_start := 0, ts_end := 0, ticks := 0 }

/-- One atomic step of `sender_thread`. A spin that reads `false`, and a thread that
has left its loop, leave the state as it is. -/
def stepSender (c : Cfg) (s : State) : State :=
  match s.spc with
  | SPc.loop =>
      if (s.si : Int) < c.nr_sample then { s with spc := SPc.fill 0 }
      else { s with spc := SPc.done }
  | SPc.fill j =>
      if j < c.words then
        { s with buffer := fun k => if k = j then c.rng s.draws else s.buffer k,
                 draws := s.draws + 1, spc := SPc.fill (j + 1) }
      else { s with spc := SPc.signal }
  | SPc.signal => { s with sender_ready := true, spc := SPc.wait }
  | SPc.wait => if s.receiver_ready then { s with spc := SPc.reset } else s
  | SPc.reset => { s with receiver_ready := false, si := s.si + 1, spc := SPc.loop }
  | SPc.done => s

/-- One atomic step of `receiver_thread`. A spin that reads `false`, and a thread that
has left its loop, leave the state as it is. -/
def stepReceiver (c : Cfg) (s : State) : State :=
  match s.rpc with
  | RPc.loop =>
      if (s.ri : Int) < c.nr_sample then { s with rpc := RPc.wait }
      else { s with rpc := RPc.done }
  | RPc.wait => if s.sender_ready then { s with rpc := RPc.reset } else s
  | RPc.reset => { s with sender_ready := false, rpc := RPc.tsStart }
  | RPc.tsStart => { s with ts_start := c.now s.ticks, ticks := s.ticks + 1, rpc := RPc.read 0 }
  | RPc.read j =>
      if j < c.words then { s with rpc := RPc.read (j + 1) }
      else { s with rpc := RPc.tsEnd }
  | RPc.tsEnd => { s with ts_end := c.now s.ticks, ticks := s.ticks + 1, rpc := RPc.push }
  | RPc.push => { s with time := s.time ++ [s.ts_end - s.ts_start], rpc := RPc.signal }
  | RPc.signal => { s with receiver_ready := true, ri := s.ri + 1, rpc := RPc.loop }
  | RPc.done => s

/-- The two threads. -/
inductive Tid
  | sender
  | receiver
deriving DecidableEq

/-- One step of the interleaving: the scheduled thread takes its step. -/
def step (c : Cfg) (t : Tid) (s : State) : State :=
  match t with
  | Tid.sender => stepSender c s
  | Tid.receiver => stepReceiver c s

/-- The state after the threads have stepped in the order of the schedule. -/
def run (c : Cfg) : List Tid → State → State
  | [], s => s
  | t :: rest, s => run c rest (step c t s)

/-- The states an execution goes through, the first one included. -/
def exec (c : Cfg) : List Tid → State → List State
  | [], s => [s]
  | t :: rest, s => s :: exec c rest (step c t s)

/-- The states the interleaving reaches from `init`. -/
inductive Reachable (c : Cfg) : State → Prop
  | init : Reachable c (init c)
  | step (t : Tid) {s : State} : Reachable c s → Reachable c (step c t s)

/-- The pair `(sender_ready, receiver_ready)`. -/
def flags (s : State) : Bool × Bool := (s.sender_ready, s.receiver_ready)

/-- The cyclic order `(F,F), (T,F), (F,F), (F,T), (F,F), ...` indexed from 0. -/
def cycle (k : Nat) : Bool × Bool :=
  if k % 4 = 1 then (true, false) else if k % 4 = 3 then (false, true) else (false, false)

/-- The sender can take a step that is not a failed spin: it has not left its loop and
is not at the spin of line 53 with `receiver_ready` false. -/
def senderCanStep (s : State) : Bool :=
  match s.spc with
  | SPc.done => false
  | SPc.wait => s.receiver_ready
  | _ => true

/-- The receiver can take a step that is not a failed spin: it has not left its loop
and is not at the spin of line 67 with `sender_ready` false. -/
def receiverCanStep (s : State) : Bool :=
  match s.rpc with
  | RPc.done => false
  | RPc.wait => s.sender_ready
  | _ => true

/-- The thread the greedy schedule runs next: the sender when it can step, the
receiver otherwise. -/
def pick (s : State) : Tid := if senderCanStep s then Tid.sender else Tid.receiver

/-- The greedy schedule of `k` steps from a state. -/
def greedySched (c : Cfg) : Nat → State → List Tid
  | 0, _ => []
  | k + 1, s => pick s :: greedySched c k (step c (pick s) s)

/-- Number of steps of the sender's loop for `n` iterations over `w` words, the final
failing test included. -/
def senderSteps (n w : Nat) : Nat := n * (w + 5) + 1

/-- Number of steps of the receiver's loop for `n` iterations over `w` words, the final
failing test included. -/
def receiverSteps (n w : Nat) : Nat := n * (w + 8) + 1

/-- The receiver is at a loop test, at its spin, or has left its loop: in the current
iteration it has not yet seen `sender_ready`. -/
def RPc.isIdle : RPc → Bool
  | RPc.loop => true
  | RPc.wait => true
  | RPc.done => true
  | _ => false

/-- The receiver has cleared `sender_ready` and has not yet set `receiver_ready`
(lines 73-77). -/
def RPc.isBusy : RPc → Bool
  | RPc.tsStart => true
  | RPc.read _ => true
  | RPc.tsEnd => true
  | RPc.push => true
  | RPc.signal => true
  | _ => false

/-- How the program points, the loop counters and the two flags are linked. -/
def LinkInv (s : State) : Prop :=
  match s.spc with
  | SPc.wait =>
      (s.ri = s.si ∧ (s.rpc.isIdle = true ∨ s.rpc = RPc.reset) ∧
          s.sender_ready = true ∧ s.receiver_ready = false) ∨
      (s.ri = s.si ∧ s.rpc.isBusy = true ∧
          s.sender_ready = false ∧ s.receiver_ready = false) ∨
      (s.ri = s.si + 1 ∧ s.rpc.isIdle = true ∧
          s.sender_ready = false ∧ s.receiver_ready = true)
  | SPc.reset =>
      s.ri = s.si + 1 ∧ s.rpc.isIdle = true ∧
        s.sender_ready = false ∧ s.receiver_ready = true
  | _ =>
      s.ri = s.si ∧ s.rpc.isIdle = true ∧
        s.sender_ready = false ∧ s.receiver_ready = false

/-- Number of flag changes so far, read off the state: four per completed iteration of
the sender, plus those of the current one. -/
def phase (s : State) : Nat :=
  4 * s.si +
    (match s.spc with
     | SPc.wait => if s.sender_ready then 1 else if s.receiver_ready then 3 else 2
     | SPc.reset => 3
     | _ => 0)

/-- The durations of the first `k` iterations of the receiver: iteration `i` reads the
clock for the `2i`-th and `2i+1`-th time around its read loop. -/
def samples (c : Cfg) (k : Nat) : List Int :=
  (List.range k).map (fun i => c.now (2 * i + 1) - c.now (2 * i))

/-- What holds of the sender's locals and of the buffer at each of its program points. -/
def SenderInv (c : Cfg) (s : State) : Prop :=
  match s.spc with
  | SPc.loop => s.draws = s.si * c.words ∧ ((s.si : Int) ≤ c.nr_sample ∨ s.si = 0)
  | SPc.fill j =>
      (s.si : Int) < c.nr_sample ∧ j ≤ c.words ∧ s.draws = s.si * c.words + j ∧
        ∀ k, k < j → s.buffer k = c.rng (s.si * c.words + k)
  | SPc.done => ¬ (s.si : Int) < c.nr_sample ∧ ((s.si : Int) ≤ c.nr_sample ∨ s.si = 0)
  | _ =>
      (s.si : Int) < c.nr_sample ∧ s.draws = s.si * c.words + c.words ∧
        ∀ k, k < c.words → s.buffer k = c.rng (s.si * c.words + k)

/-- What holds of the receiver's locals and of the samples at each of its program
points. -/
def ReceiverInv (c : Cfg) (s : State) : Prop :=
  match s.rpc with
  | RPc.loop =>
      s.time = samples c s.ri ∧ s.ticks = 2 * s.ri ∧
        ((s.ri : Int) ≤ c.nr_sample ∨ s.ri = 0)
  | RPc.done =>
      s.time = samples c s.ri ∧ ¬ (s.ri : Int) < c.nr_sample ∧
        ((s.ri : Int) ≤ c.nr_sample ∨ s.ri = 0)
  | RPc.read j =>
      (s.ri : Int) < c.nr_sample ∧ s.time = samples c s.ri ∧ j ≤ c.words ∧
        s.ticks = 2 * s.ri + 1 ∧ s.ts_start = c.now (2 * s.ri)
  | RPc.tsEnd =>
      (s.ri : Int) < c.nr_sample ∧ s.time = samples c s.ri ∧
        s.ticks = 2 * s.ri + 1 ∧ s.ts_start = c.now (2 * s.ri)
  | RPc.push =>
      (s.ri : Int) < c.nr_sample ∧ s.time = samples c s.ri ∧ s.ticks = 2 * s.ri + 2 ∧
        s.ts_start = c.now (2 * s.ri) ∧ s.ts_end = c.now (2 * s.ri + 1)
  | RPc.signal =>
      (s.ri : Int) < c.nr_sample ∧ s.time = samples c (s.ri + 1) ∧ s.ticks = 2 * s.ri + 2
  | _ => (s.ri : Int) < c.nr_sample ∧ s.time = samples c s.ri ∧ s.ticks = 2 * s.ri

/-- The invariant of the interleaving. -/
def Inv (c : Cfg) (s : State) : Prop := LinkInv s ∧ SenderInv c s ∧ ReceiverInv c s

/-- Number of steps the sender has taken, failed spins apart. -/
def senderPos (c : Cfg) (s : State) : Nat :=
  s.si * (c.words + 5) +
    (match s.spc with
     | SPc.loop => 0
     | SPc.fill j => 1 + j
     | SPc.signal => c.words + 2
     | SPc.wait => c.words + 3
     | SPc.reset => c.words + 4
     | SPc.done => 1)

/-- Number of steps the receiver has taken, failed spins apart. -/
def receiverPos (c : Cfg) (s : State) : Nat :=
  s.ri * (c.words + 8) +
    (match s.rpc with
     | RPc.loop => 0
     | RPc.wait => 1
     | RPc.reset => 2
     | RPc.tsStart => 3
     | RPc.read j => 4 + j
     | RPc.tsEnd => c.words + 5
     | RPc.push => c.words + 6
     | RPc.signal => c.words + 7
     | RPc.done => 1)

/-- The number of iterations the loops make for the configured `nr_sample` (none when
it is not positive). -/
def Cfg.iterations (c : Cfg) : Nat := c.nr_sample.toNat

/-- Number of steps, failed spins apart, after which both loops have been left. -/
def totalSteps (c : Cfg) : Nat :=
  senderSteps c.iterations c.words + receiverSteps c.iterations c.words

/-- A small configuration: 3 iterations over a buffer of 8 bytes (2 words). -/
def demoCfg : Cfg :=
  { nr_sample := 3, bulk_size := 8, rng := fun k => k + 100, now := fun k => 10 * (k : Int),
    buffer0 := fun _ => 0 }

/-- A schedule that runs the sender up to its spin, then the receiver into its read
loop. -/
def demoSched : List Tid :=
  [Tid.sender, Tid.sender, Tid.sender, Tid.sender, Tid.sender,
   Tid.receiver, Tid.receiver, Tid.receiver, Tid.receiver]

/-! # Lemmas and theorems -/

/-! ### Lemmas on the reduction -/

theorem wrap64_of_fits {x : Int} (h1 : INT64_MIN ≤ x) (h2 : x ≤ INT64_MAX) : wrap64 x = x := by
  unfold wrap64
  unfold INT64_MIN at h1
  unfold INT64_MAX at h2
  omega

/-- The minimum component of the loop does not depend on the sum component. -/
theorem measure_bw_loop_snd (time : List Int) (a m : Int) :
    (measure_bw_loop time (a, m)).2 = time.foldl stdMin m := by
  induction time generalizing a m with
  | nil => rfl
  | cons t ts ih => simp [measure_bw_loop, ih]

theorem foldl_stdMin_le_init (time : List Int) (m : Int) : time.foldl stdMin m ≤ m := by
  induction time generalizing m with
  | nil => simp
  | cons t ts ih =>
    simp only [List.foldl_cons]
    have := ih (stdMin m t)
    unfold stdMin at this ⊢
    split at this <;> split <;> omega

theorem foldl_stdMin_le_mem (time : List Int) (m : Int) :
    ∀ t ∈ time, time.foldl stdMin m ≤ t := by
  induction time generalizing m with
  | nil => simp
  | cons t ts ih =>
    intro x hx
    simp only [List.foldl_cons]
    rcases List.mem_cons.mp hx with rfl | hx
    · have := foldl_stdMin_le_init ts (stdMin m x)
      unfold stdMin at this ⊢
      split at this <;> split <;> omega
    · exact ih _ x hx

theorem foldl_stdMin_mem_or (time : List Int) (m : Int) :
    time.foldl stdMin m = m ∨ time.foldl stdMin m ∈ time := by
  induction time generalizing m with
  | nil => simp
  | cons t ts ih =>
    simp only [List.foldl_cons]
    rcases ih (stdMin m t) with h | h
    · rw [h]
      unfold stdMin
      split
      · right; simp
      · left; rfl
    · right; exact List.mem_cons_of_mem _ h

theorem wrap64_add_wrap64 (x y : Int) : wrap64 (wrap64 x + y) = wrap64 (x + y) := by
  unfold wrap64
  omega

/-- The sum component of the loop is the accumulator plus the sum of the samples,
reduced to 64 bits. -/
theorem measure_bw_loop_fst (time : List Int) (a m : Int) (ha : wrap64 a = a) :
    (measure_bw_loop time (a, m)).1 = wrap64 (a + time.sum) := by
  induction time generalizing a m with
  | nil => simp [measure_bw_loop, ha]
  | cons t ts ih =>
    simp only [measure_bw_loop, List.sum_cons]
    rw [ih _ _ (by unfold wrap64; omega), wrap64_add_wrap64, add_assoc]

theorem length_mul_le_sum (time : List Int) (m : Int) (h : ∀ t ∈ time, m ≤ t) :
    (time.length : Int) * m ≤ time.sum := by
  induction time with
  | nil => simp
  | cons t ts ih =>
    have h1 := h t (by simp)
    have h2 := ih (fun x hx => h x (List.mem_cons_of_mem _ hx))
    simp only [List.length_cons, List.sum_cons, Nat.cast_add, Nat.cast_one]
    linarith

/-- Truncating division by a positive count keeps a lower bound of the mean. -/
theorem le_tdiv_of_mul_le {s n m : Int} (hn : 0 < n) (h : n * m ≤ s) : m ≤ Int.tdiv s n := by
  have h1 := Int.tdiv_add_tmod s n
  have h2 : Int.tmod s n < n := Int.tmod_lt_of_pos s hn
  by_contra hlt
  have h3 : Int.tdiv s n + 1 ≤ m := by omega
  have h4 : n * (Int.tdiv s n + 1) ≤ n * m := Int.mul_le_mul_of_nonneg_left h3 (le_of_lt hn)
  have h5 : n * (Int.tdiv s n + 1) = n * Int.tdiv s n + n := by ring
  omega

theorem measure_bw_loop_fst_of_sumFits (time : List Int) (h : SumFits time) :
    (measure_bw_loop time (0, INT64_MAX)).1 = time.sum := by
  rw [measure_bw_loop_fst time 0 INT64_MAX (by decide), zero_add]
  exact wrap64_of_fits h.1 h.2

theorem measure_bw_reduce_eq (time : List Int) (hne : time ≠ []) :
    measure_bw_reduce time =
      some (Int.tdiv (measure_bw_loop time (0, INT64_MAX)).1 (time.length : Int),
        time.foldl stdMin INT64_MAX) := by
  have hlen : time.length ≠ 0 := by simpa using hne
  simp [measure_bw_reduce, hlen, measure_bw_loop_snd]

theorem length_pos_int {time : List Int} (hne : time ≠ []) : (0 : Int) < (time.length : Int) := by
  have : 0 < time.length := List.length_pos.mpr hne
  exact_mod_cast this

/-! ### The reduction: mean and minimum -/

/-- C4 as stated fails: on the samples `[1, 2]` the reduction yields `avg_time = 1`,
which is not the exact mean `3/2`. -/
theorem avg_time_not_exact_mean :
    ∃ avg mn : Int, measure_bw_reduce [1, 2] = some (avg, mn) ∧
      (avg : ℚ) ≠ ((([1, 2] : List Int).sum : Int) : ℚ) / (([1, 2] : List Int).length : ℚ) := by
  refine ⟨1, 1, by decide, ?_⟩
  norm_num

/-- C4 amended: for a non-empty sample sequence whose sum fits the 64-bit count, the
reduction yields `avg_time` equal to the sum of the samples divided by their count
with the quotient truncated toward zero; it is less than one nanosecond away from the
exact rational mean. -/
theorem avg_time_truncated_mean (time : List Int) (hne : time ≠ []) (hfit : SumFits time) :
    ∃ avg mn : Int, measure_bw_reduce time = some (avg, mn) ∧
      avg = Int.tdiv time.sum (time.length : Int) ∧
      |(avg : ℚ) - (time.sum : ℚ) / (time.length : ℚ)| < 1 := by
  refine ⟨_, _, measure_bw_reduce_eq time hne, ?_, ?_⟩
  · rw [measure_bw_loop_fst_of_sumFits time hfit]
  · rw [measure_bw_loop_fst_of_sumFits time hfit]
    have hn := length_pos_int hne
    have hnq : (0 : ℚ) < (time.length : ℚ) := by exact_mod_cast List.length_pos.mpr hne
    have h1 := Int.tdiv_add_tmod time.sum (time.length : Int)
    have h2 : Int.tmod time.sum (time.length : Int) < (time.length : Int) :=
      Int.tmod_lt_of_pos _ hn
    have h3 : -(time.length : Int) < Int.tmod time.sum (time.length : Int) := by
      have := Int.tmod_lt_of_pos (-time.sum) hn
      rw [Int.tmod_def, Int.neg_tdiv, Int.mul_neg] at this
      omega
    have e : (time.sum : ℚ) = (time.length : ℚ) * (Int.tdiv time.sum (time.length : Int) : ℚ)
        + (Int.tmod time.sum (time.length : Int) : ℚ) := by
      have := congrArg (fun z : Int => (z : ℚ)) h1
      simp only [Int.cast_add, Int.cast_mul, Int.cast_natCast] at this
      exact this.symm
    have h2q : (Int.tmod time.sum (time.length : Int) : ℚ) < (time.length : ℚ) := by
      exact_mod_cast h2
    have h3q : -(time.length : ℚ) < (Int.tmod time.sum (time.length : Int) : ℚ) := by
      exact_mod_cast h3
    have hdiv : (time.sum : ℚ) / (time.length : ℚ)
        = (Int.tdiv time.sum (time.length : Int) : ℚ)
          + (Int.tmod time.sum (time.length : Int) : ℚ) / (time.length : ℚ) := by
      rw [e]
      field_simp
      ring
    have hr : |(Int.tmod time.sum (time.length : Int) : ℚ) / (time.length : ℚ)| < 1 := by
      rw [abs_div, abs_of_pos hnq, div_lt_one hnq, abs_lt]
      exact ⟨h3q, h2q⟩
    rw [hdiv, sub_add_cancel_left, abs_neg]
    exact hr

/-- Witness of `avg_time_truncated_mean` on the samples `[1, 2]`. -/
theorem avg_time_truncated_mean_witness :
    ([1, 2] : List Int) ≠ [] ∧ SumFits [1, 2] ∧
    ∃ avg mn : Int, measure_bw_reduce [1, 2] = some (avg, mn) ∧
      avg = Int.tdiv ([1, 2] : List Int).sum (([1, 2] : List Int).length : Int) ∧
      |(avg : ℚ) - ((([1, 2] : List Int).sum : Int) : ℚ) / (([1, 2] : List Int).length : ℚ)| < 1 :=
  have hfit : SumFits [1, 2] := by unfold SumFits; decide
  ⟨by decide, hfit, avg_time_truncated_mean [1, 2] (by decide) hfit⟩

/-- C5: for a non-empty sample sequence whose sum fits the 64-bit count, the
reduction yields a result and its `min_time` is at most its `avg_time` (the value after
the division by the sample count). -/
theorem min_time_le_avg_time (time : List Int) (hne : time ≠ []) (hfit : SumFits time) :
    ∃ avg mn : Int, measure_bw_reduce time = some (avg, mn) ∧ mn ≤ avg := by
  refine ⟨_, _, measure_bw_reduce_eq time hne, ?_⟩
  rw [measure_bw_loop_fst_of_sumFits time hfit]
  apply le_tdiv_of_mul_le (length_pos_int hne)
  exact length_mul_le_sum time _ (foldl_stdMin_le_mem time INT64_MAX)

/-- Witness of `min_time_le_avg_time` on the samples `[5, 3, 9]`. -/
theorem min_time_le_avg_time_witness :
    ([5, 3, 9] : List Int) ≠ [] ∧ SumFits [5, 3, 9] ∧
    ∃ avg mn : Int, measure_bw_reduce [5, 3, 9] = some (avg, mn) ∧ mn ≤ avg :=
  have hfit : SumFits [5, 3, 9] := by unfold SumFits; decide
  ⟨by decide, hfit, min_time_le_avg_time [5, 3, 9] (by decide) hfit⟩

/-- C6: for a non-empty sequence of samples (each a 64-bit count, so at most
`INT64_MAX`), the `min_time` computed by the reduction loop is one of the samples and is
at most every sample. -/
theorem min_time_is_minimum (time : List Int) (hne : time ≠ [])
    (hfit : ∀ t ∈ time, t ≤ INT64_MAX) :
    (measure_bw_loop time (0, INT64_MAX)).2 ∈ time ∧
      ∀ t ∈ time, (measure_bw_loop time (0, INT64_MAX)).2 ≤ t := by
  rw [measure_bw_loop_snd]
  refine ⟨?_, foldl_stdMin_le_mem time INT64_MAX⟩
  rcases foldl_stdMin_mem_or time INT64_MAX with h | h
  · obtain ⟨t, ts, rfl⟩ := List.exists_cons_of_ne_nil hne
    have h1 := foldl_stdMin_le_mem (t :: ts) INT64_MAX t (by simp)
    have h2 := hfit t (by simp)
    have : List.foldl stdMin INT64_MAX (t :: ts) = t := by rw [h] at h1 ⊢; omega
    rw [this]; simp
  · exact h

/-- Witness of `min_time_is_minimum` on the samples `[5, 3, 9]`. -/
theorem min_time_is_minimum_witness :
    ([5, 3, 9] : List Int) ≠ [] ∧ (∀ t ∈ ([5, 3, 9] : List Int), t ≤ INT64_MAX) ∧
    ((measure_bw_loop [5, 3, 9] (0, INT64_MAX)).2 ∈ ([5, 3, 9] : List Int) ∧
      ∀ t ∈ ([5, 3, 9] : List Int), (measure_bw_loop [5, 3, 9] (0, INT64_MAX)).2 ≤ t) :=
  ⟨by decide, by decide, min_time_is_minimum [5, 3, 9] (by decide) (by decide)⟩

/-! ### Lemmas on `atoi` and the scan -/

theorem digitChar_spec (k : Nat) (hk : k < 10) :
    isdigit (Nat.digitChar k) = true ∧ (Nat.digitChar k).toNat - 48 = k := by
  interval_cases k <;> decide

/-- The decimal digits that `Nat.toDigitsCore` puts in front of `ds` are read back by
the digit loop as the number they were produced from. -/
theorem toDigitsCore_spec (fuel : Nat) : ∀ (n : Nat) (ds : List Char), n < fuel →
    ∃ pre : List Char, Nat.toDigitsCore 10 fuel n ds = pre ++ ds ∧ pre ≠ [] ∧
      (∀ ch ∈ pre, isdigit ch = true) ∧
      ∀ (acc : Nat) (rest : List Char),
        atoiDigits acc (pre ++ rest) = atoiDigits (acc * 10 ^ pre.length + n) rest := by
  induction fuel with
  | zero => intro n ds h; omega
  | succ fuel ih =>
    intro n ds hn
    have hd := digitChar_spec (n % 10) (Nat.mod_lt _ (by decide))
    unfold Nat.toDigitsCore
    by_cases h0 : n / 10 = 0
    · simp only [h0, if_true]
      refine ⟨[Nat.digitChar (n % 10)], by simp, by simp, ?_, ?_⟩
      · intro ch hch
        simp only [List.mem_singleton] at hch
        rw [hch]; exact hd.1
      · intro acc rest
        have hn10 : n % 10 = n := by omega
        rw [hn10] at hd
        simp [atoiDigits, hn10, hd.1, hd.2]
    · simp only [h0, if_false]
      obtain ⟨pre, hpre, -, hdig, hval⟩ :=
        ih (n / 10) (Nat.digitChar (n % 10) :: ds) (by omega)
      refine ⟨pre ++ [Nat.digitChar (n % 10)], by simp [hpre], by simp, ?_, ?_⟩
      · intro ch hch
        rcases List.mem_append.mp hch with h | h
        · exact hdig ch h
        · simp only [List.mem_singleton] at h
          rw [h]; exact hd.1
      · intro acc rest
        have e : pre ++ [Nat.digitChar (n % 10)] ++ rest
            = pre ++ (Nat.digitChar (n % 10) :: rest) := by simp
        rw [e, hval]
        simp only [atoiDigits, hd.1, hd.2, if_true, List.length_append, List.length_singleton]
        congr 1
        have hdm := Nat.div_add_mod n 10
        rw [pow_succ]
        nlinarith

/-- The characters of the decimal representation of a natural number. -/
theorem repr_data_spec (v : Nat) :
    (toString v).data ≠ [] ∧ (∀ ch ∈ (toString v).data, isdigit ch = true) ∧
      atoiDigits 0 (toString v).data = v := by
  obtain ⟨pre, hpre, hne, hdig, hval⟩ := toDigitsCore_spec (v + 1) v [] (by omega)
  have e : (toString v).data = pre := by
    show (Nat.repr v).data = pre
    simp [Nat.repr, Nat.toDigits, hpre, List.asString]
  rw [e]
  refine ⟨hne, hdig, ?_⟩
  have := hval 0 []
  simpa [atoiDigits] using this

theorem toInt32_of_fits {x : Int} (h1 : -(2 ^ 31) ≤ x) (h2 : x < 2 ^ 31) : toInt32 x = x := by
  unfold toInt32
  omega

/-- The library `atoi` reads the decimal representation of a number within `int` back
as that number. -/
theorem atoi_toString (v : Nat) (hv : v < 2 ^ 31) : atoi (toString v) = (v : Int) := by
  obtain ⟨hne, hdig, hval⟩ := repr_data_spec v
  unfold atoi strtol
  obtain ⟨ch, rest, hcr⟩ := List.exists_cons_of_ne_nil hne
  have hch : isdigit ch = true := hdig ch (by rw [hcr]; simp)
  have hsp : isspace ch = false := by
    simp only [isdigit, isspace, Bool.and_eq_true, decide_eq_true_eq] at hch ⊢
    simp only [Bool.or_eq_false_iff, Bool.and_eq_false_iff, decide_eq_false_iff_not]
    omega
  have hminus : ch ≠ '-' := by
    intro h; rw [h] at hch; exact absurd hch (by decide)
  have hplus : ch ≠ '+' := by
    intro h; rw [h] at hch; exact absurd hch (by decide)
  rw [hcr] at hval ⊢
  simp only [List.dropWhile, hsp, hminus, hplus, if_false, hval]
  have h1 : min (v : Int) LONG_MAX = v := by
    unfold LONG_MAX; omega
  have h2 : max LONG_MIN (v : Int) = v := by
    unfold LONG_MIN; omega
  rw [h1, h2]
  exact toInt32_of_fits (by omega) (by exact_mod_cast hv)

/-- The decimal representation of a number is none of the five flags. -/
theorem scanStep_toString (st : Conf) (v : Nat) (b : String) :
    scanStep st (toString v) b = st := by
  obtain ⟨-, hdig, -⟩ := repr_data_spec v
  have key : ∀ f : String, '-' ∈ f.data → toString v ≠ f := by
    intro f hf h
    rw [h] at hdig
    exact absurd (hdig _ hf) (by decide)
  have h1 := key "-s" (by decide)
  have h2 := key "-d" (by decide)
  have h3 := key "-sz" (by decide)
  have h4 := key "-w" (by decide)
  have h5 := key "-ns" (by decide)
  simp [scanStep, h1, h2, h3, h4, h5]

theorem scan_toString_cons (v : Nat) (rest : List String) (st : Conf) :
    scan (toString v :: rest) st = scan rest st := by
  cases rest with
  | nil => simp [scan]
  | cons b r => rw [scan, scanStep_toString]

/-- On flag/value pairs the scan is the left fold of `scanStep` over the pairs. -/
theorem scan_pairs (pairs : List (String × Nat)) (st : Conf) :
    scan (pairs.flatMap (fun p => [p.1, toString p.2])) st
      = pairs.foldl (fun acc p => scanStep acc p.1 (toString p.2)) st := by
  induction pairs generalizing st with
  | nil => simp [scan]
  | cons p ps ih =>
    simp only [List.flatMap_cons, List.cons_append, List.nil_append, List.foldl_cons]
    rw [scan, scan_toString_cons, ih]

theorem lastValue_append (flag : String) (ps : List (String × Nat)) (p : String × Nat)
    (dflt : Int) :
    lastValue flag (ps ++ [p]) dflt = if p.1 = flag then (p.2 : Int) else lastValue flag ps dflt := by
  unfold lastValue
  simp only [List.reverse_append, List.reverse_cons, List.reverse_nil, List.nil_append,
    List.singleton_append, List.find?_cons]
  by_cases h : p.1 = flag <;> simp [h]

theorem scan_src_of_not_mem (l : List String) (st : Conf) (h : "-s" ∉ l) :
    (scan l st).src = st.src := by
  induction l generalizing st with
  | nil => simp [scan]
  | cons a t ih =>
    cases t with
    | nil => simp [scan]
    | cons b r =>
      rw [scan, ih _ (fun hm => h (List.mem_cons_of_mem _ hm))]
      have ha : a ≠ "-s" := fun e => h (by simp [e])
      simp only [scanStep, ha, if_false]
      split_ifs <;> rfl

theorem scan_dst_of_not_mem (l : List String) (st : Conf) (h : "-d" ∉ l) :
    (scan l st).dst = st.dst := by
  induction l generalizing st with
  | nil => simp [scan]
  | cons a t ih =>
    cases t with
    | nil => simp [scan]
    | cons b r =>
      rw [scan, ih _ (fun hm => h (List.mem_cons_of_mem _ hm))]
      have ha : a ≠ "-d" := fun e => h (by simp [e])
      simp only [scanStep, ha, if_false]
      split_ifs <;> rfl

/-! ### The handshake: flags -/

theorem linkInv_init (c : Cfg) : LinkInv (init c) := by
  simp [LinkInv, init, RPc.isIdle]

theorem linkInv_stepSender (c : Cfg) (s : State) (h : LinkInv s) : LinkInv (stepSender c s) := by
  obtain ⟨sr, rr, buf, time, spc, si, draws, rpc, ri, ts, te, ticks⟩ := s
  cases spc <;> simp only [LinkInv, stepSender] at h ⊢
  · split_ifs <;> exact h
  · split_ifs <;> exact h
  · simp [h.1, h.2.1, h.2.2.2]
  · split_ifs with hr
    · simp only [hr] at h ⊢
      simpa using h
    · exact h
  · simp [h.1, h.2.1, h.2.2.1]
  · exact h

theorem linkInv_stepReceiver (c : Cfg) (s : State) (h : LinkInv s) :
    LinkInv (stepReceiver c s) := by
  obtain ⟨sr, rr, buf, time, spc, si, draws, rpc, ri, ts, te, ticks⟩ := s
  cases spc <;> cases rpc <;> simp only [LinkInv, stepReceiver] at h ⊢ <;>
    (try split_ifs) <;> simp_all [RPc.isIdle, RPc.isBusy]

theorem linkInv_step (c : Cfg) (t : Tid) (s : State) (h : LinkInv s) : LinkInv (step c t s) := by
  cases t
  · exact linkInv_stepSender c s h
  · exact linkInv_stepReceiver c s h

theorem linkInv_of_reachable {c : Cfg} {s : State} (h : Reachable c s) : LinkInv s := by
  induction h with
  | init => exact linkInv_init c
  | step t _ ih => exact linkInv_step c t _ ih

theorem flags_eq_cycle_phase (s : State) (h : LinkInv s) : flags s = cycle (phase s) := by
  obtain ⟨sr, rr, buf, time, spc, si, draws, rpc, ri, ts, te, ticks⟩ := s
  have m0 : (4 * si + 0) % 4 = 0 := by omega
  have m1 : (4 * si + 1) % 4 = 1 := by omega
  have m2 : (4 * si + 2) % 4 = 2 := by omega
  have m3 : (4 * si + 3) % 4 = 3 := by omega
  cases spc <;> simp only [LinkInv] at h <;> simp only [flags, cycle, phase]
  · simp [h.2.2.1, h.2.2.2]
  · simp [h.2.2.1, h.2.2.2]
  · simp [h.2.2.1, h.2.2.2]
  · rcases h with h | h | h
    · simp [h.2.2.1, h.2.2.2, m1]
    · simp [h.2.2.1, h.2.2.2, m2]
    · simp [h.2.2.1, h.2.2.2, m3]
  · simp [h.2.2.1, h.2.2.2, m3]
  · simp [h.2.2.1, h.2.2.2]

theorem cycle_ne_succ (k : Nat) : cycle k ≠ cycle (k + 1) := by
  have h : k % 4 = 0 ∨ k % 4 = 1 ∨ k % 4 = 2 ∨ k % 4 = 3 := by omega
  rcases h with h | h | h | h
  · have h' : (k + 1) % 4 = 1 := by omega
    simp [cycle, h, h']
  · have h' : (k + 1) % 4 = 2 := by omega
    simp [cycle, h, h']
  · have h' : (k + 1) % 4 = 3 := by omega
    simp [cycle, h, h']
  · have h' : (k + 1) % 4 = 0 := by omega
    simp [cycle, h, h']

theorem cycle_ne_true_true (k : Nat) : cycle k ≠ (true, true) := by
  unfold cycle
  split_ifs <;> simp

/-- A step leaves the number of flag changes as it is or adds one to it. -/
theorem phase_step (c : Cfg) (t : Tid) (s : State) (h : LinkInv s) :
    phase (step c t s) = phase s ∨ phase (step c t s) = phase s + 1 := by
  obtain ⟨sr, rr, buf, time, spc, si, draws, rpc, ri, ts, te, ticks⟩ := s
  cases t
  · cases spc <;> simp only [LinkInv] at h <;> simp only [step, stepSender, phase]
    · split_ifs <;> simp
    · split_ifs <;> simp
    · simp [h.2.2.1]
    · rcases h with h | h | h
      · simp [h.2.2.1, h.2.2.2]
      · simp [h.2.2.1, h.2.2.2]
      · simp [h.2.2.1, h.2.2.2]
    · right; omega
    · simp
  · cases spc <;> cases rpc <;> simp only [LinkInv] at h <;>
      simp only [step, stepReceiver, phase] <;> (try split_ifs) <;>
      simp_all [RPc.isIdle, RPc.isBusy]

theorem exec_eq_cons (c : Cfg) (sched : List Tid) (s : State) :
    ∃ tl, exec c sched s = s :: tl := by
  cases sched with
  | nil => exact ⟨[], rfl⟩
  | cons t rest => exact ⟨exec c rest (step c t s), rfl⟩

/-- Along an execution from a state that satisfies the link invariant, the flag pairs
with repetitions dropped are a stretch of the cycle that starts at the phase of the
state. -/
theorem destutter_flags_exec (c : Cfg) (sched : List Tid) : ∀ s : State, LinkInv s →
    ∃ k, List.destutter (· ≠ ·) ((exec c sched s).map flags)
      = (List.range' (phase s) (k + 1)).map cycle := by
  induction sched with
  | nil =>
    intro s h
    refine ⟨0, ?_⟩
    simp [exec, flags_eq_cycle_phase s h, List.range']
  | cons t rest ih =>
    intro s h
    have h' := linkInv_step c t s h
    obtain ⟨k, hk⟩ := ih (step c t s) h'
    obtain ⟨tl, htl⟩ := exec_eq_cons c rest (step c t s)
    have e : (exec c (t :: rest) s).map flags
        = flags s :: flags (step c t s) :: tl.map flags := by
      simp [exec, htl]
    rw [htl, List.map_cons, List.destutter_cons'] at hk
    rw [e, List.destutter_cons_cons]
    rcases phase_step c t s h with hp | hp
    · have hf : flags s = flags (step c t s) := by
        rw [flags_eq_cycle_phase s h, flags_eq_cycle_phase _ h', hp]
      refine ⟨k, ?_⟩
      rw [if_neg (by simp [hf]), hf, hk, hp]
    · have hf : flags s ≠ flags (step c t s) := by
        rw [flags_eq_cycle_phase s h, flags_eq_cycle_phase _ h', hp]
        exact cycle_ne_succ _
      refine ⟨k + 1, ?_⟩
      rw [if_pos hf, hk, hp]
      rw [List.range'_succ (phase s) (k + 1)]
      simp [flags_eq_cycle_phase s h]

theorem reachable_run (c : Cfg) (sched : List Tid) : ∀ s : State, Reachable c s →
    Reachable c (run c sched s) := by
  induction sched with
  | nil => intro s h; exact h
  | cons t rest ih => intro s h; exact ih _ (Reachable.step t h)

/-- The reachable states are the states that some schedule leads to. -/
theorem reachable_iff_run (c : Cfg) (s : State) :
    Reachable c s ↔ ∃ sched, run c sched (init c) = s := by
  constructor
  · intro h
    induction h with
    | init => exact ⟨[], rfl⟩
    | step t _ ih =>
      obtain ⟨sched, hs⟩ := ih
      refine ⟨sched ++ [t], ?_⟩
      have : ∀ (l : List Tid) (x : State), run c (l ++ [t]) x = step c t (run c l x) := by
        intro l
        induction l with
        | nil => intro x; rfl
        | cons a l ihl => intro x; simp [run, ihl]
      rw [this, hs]
  · rintro ⟨sched, rfl⟩
    exact reachable_run c sched _ Reachable.init

/-- C1: from both flags false, no reachable state of the interleaving has
`(sender_ready, receiver_ready) = (true, true)`, and along every execution the pair,
with repetitions dropped, runs through `(F,F), (T,F), (F,F), (F,T), (F,F), ...` from
its start. -/
theorem flags_follow_cycle (c : Cfg) :
    (∀ s, Reachable c s → flags s ≠ (true, true)) ∧
    (∀ sched : List Tid, ∃ k,
      List.destutter (· ≠ ·) ((exec c sched (init c)).map flags)
        = (List.range (k + 1)).map cycle) := by
  constructor
  · intro s hs
    rw [flags_eq_cycle_phase s (linkInv_of_reachable hs)]
    exact cycle_ne_true_true _
  · intro sched
    obtain ⟨k, hk⟩ := destutter_flags_exec c sched (init c) (linkInv_init c)
    refine ⟨k, ?_⟩
    rw [hk, List.range_eq_range']
    rfl

/-! ### The handshake: the invariant -/

theorem samples_length (c : Cfg) (k : Nat) : (samples c k).length = k := by
  simp [samples]

theorem samples_succ (c : Cfg) (k : Nat) :
    samples c (k + 1) = samples c k ++ [c.now (2 * k + 1) - c.now (2 * k)] := by
  simp [samples, List.range_succ]

theorem senderInv_stepSender (c : Cfg) (s : State) (h : SenderInv c s) :
    SenderInv c (stepSender c s) := by
  obtain ⟨sr, rr, buf, time, spc, si, draws, rpc, ri, ts, te, ticks⟩ := s
  cases spc <;> simp only [SenderInv, stepSender] at h ⊢
  · split_ifs with hlt
    · simp only [SenderInv]
      exact ⟨hlt, Nat.zero_le _, by omega, fun k hk => absurd hk (Nat.not_lt_zero k)⟩
    · exact ⟨hlt, h.2⟩
  · rename_i j
    obtain ⟨h1, h2, h3, h4⟩ := h
    split_ifs with hj
    · simp only [SenderInv]
      refine ⟨h1, hj, by omega, ?_⟩
      intro k hk
      by_cases hkj : k = j
      · simp [hkj, h3]
      · simp only [hkj, if_false]
        exact h4 k (by omega)
    · simp only [SenderInv]
      have hjw : j = c.words := by omega
      subst hjw
      exact ⟨h1, h3, h4⟩
  · exact h
  · split_ifs
    · exact h
    · exact h
  · refine ⟨?_, Or.inl ?_⟩
    · rw [Nat.add_mul]; omega
    · push_cast; omega
  · exact h

theorem senderInv_stepReceiver (c : Cfg) (s : State) (h : SenderInv c s) :
    SenderInv c (stepReceiver c s) := by
  obtain ⟨sr, rr, buf, time, spc, si, draws, rpc, ri, ts, te, ticks⟩ := s
  cases rpc <;> simp only [stepReceiver] <;> (try split_ifs) <;> exact h

theorem receiverInv_stepReceiver (c : Cfg) (s : State) (h : ReceiverInv c s) :
    ReceiverInv c (stepReceiver c s) := by
  obtain ⟨sr, rr, buf, time, spc, si, draws, rpc, ri, ts, te, ticks⟩ := s
  cases rpc <;> simp only [ReceiverInv, stepReceiver] at h ⊢
  · split_ifs with hlt
    · exact ⟨hlt, h.1, h.2.1⟩
    · exact ⟨h.1, hlt, h.2.2⟩
  · split_ifs
    · exact h
    · exact h
  · exact h
  · exact ⟨h.1, h.2.1, Nat.zero_le _, by omega, by rw [h.2.2]⟩
  · rename_i j
    split_ifs with hj
    · simp only [ReceiverInv]
      exact ⟨h.1, h.2.1, hj, h.2.2.2⟩
    · simp only [ReceiverInv]
      exact ⟨h.1, h.2.1, h.2.2.2⟩
  · obtain ⟨h1, h2, h3, h4⟩ := h
    exact ⟨h1, h2, by omega, h4, by rw [h3]⟩
  · obtain ⟨h1, h2, h3, h4, h5⟩ := h
    refine ⟨h1, ?_, h3⟩
    rw [samples_succ, h2, h4, h5]
  · obtain ⟨h1, h2, h3⟩ := h
    exact ⟨h2, by omega, Or.inl (by push_cast; omega)⟩
  · exact h

theorem receiverInv_stepSender (c : Cfg) (s : State) (h : ReceiverInv c s) :
    ReceiverInv c (stepSender c s) := by
  obtain ⟨sr, rr, buf, time, spc, si, draws, rpc, ri, ts, te, ticks⟩ := s
  cases spc <;> simp only [stepSender] <;> (try split_ifs) <;> exact h

theorem inv_init (c : Cfg) : Inv c (init c) := by
  refine ⟨linkInv_init c, ?_, ?_⟩
  · simp [SenderInv, init]
  · simp [ReceiverInv, init, samples]

theorem inv_step (c : Cfg) (t : Tid) (s : State) (h : Inv c s) : Inv c (step c t s) := by
  obtain ⟨h1, h2, h3⟩ := h
  cases t
  · exact ⟨linkInv_stepSender c s h1, senderInv_stepSender c s h2,
      receiverInv_stepSender c s h3⟩
  · exact ⟨linkInv_stepReceiver c s h1, senderInv_stepReceiver c s h2,
      receiverInv_stepReceiver c s h3⟩

theorem inv_of_reachable {c : Cfg} {s : State} (h : Reachable c s) : Inv c s := by
  induction h with
  | init => exact inv_init c
  | step t _ ih => exact inv_step c t _ ih

/-! ### The handshake: progress -/

theorem stepSender_of_not_canStep (c : Cfg) (s : State) (h : senderCanStep s = false) :
    stepSender c s = s := by
  obtain ⟨sr, rr, buf, time, spc, si, draws, rpc, ri, ts, te, ticks⟩ := s
  cases spc <;> simp_all [senderCanStep, stepSender]

theorem stepReceiver_of_not_canStep (c : Cfg) (s : State) (h : receiverCanStep s = false) :
    stepReceiver c s = s := by
  obtain ⟨sr, rr, buf, time, spc, si, draws, rpc, ri, ts, te, ticks⟩ := s
  cases rpc <;> simp_all [receiverCanStep, stepReceiver]

/-- In a state of the invariant in which a thread is still in its loop, one of the two
can take a step that is not a failed spin. -/
theorem canStep_of_inv (c : Cfg) (s : State) (h : Inv c s)
    (hnd : s.spc ≠ SPc.done ∨ s.rpc ≠ RPc.done) :
    senderCanStep s = true ∨ receiverCanStep s = true := by
  obtain ⟨sr, rr, buf, time, spc, si, draws, rpc, ri, ts, te, ticks⟩ := s
  obtain ⟨h1, h2, h3⟩ := h
  cases spc <;> cases rpc <;>
    simp_all [senderCanStep, receiverCanStep, LinkInv, SenderInv, ReceiverInv,
      RPc.isIdle, RPc.isBusy] <;>
    first
      | omega
      | (rcases h1 with h | h <;> first | (exfalso; omega) | simp_all)

theorem senderPos_stepSender (c : Cfg) (s : State) (h : SenderInv c s)
    (hc : senderCanStep s = true) :
    senderPos c (stepSender c s) = senderPos c s + 1 ∧
      receiverPos c (stepSender c s) = receiverPos c s := by
  obtain ⟨sr, rr, buf, time, spc, si, draws, rpc, ri, ts, te, ticks⟩ := s
  cases spc <;> simp only [SenderInv, senderCanStep, stepSender] at h hc ⊢
  · split_ifs <;> simp [senderPos, receiverPos]
  · split_ifs with hj
    · simp [senderPos, receiverPos]; try omega
    · simp [senderPos, receiverPos]; try omega
  · simp [senderPos, receiverPos]; try omega
  · simp [hc, senderPos, receiverPos]; try omega
  · simp [senderPos, receiverPos, Nat.add_mul]; try omega
  · simp at hc

theorem receiverPos_stepReceiver (c : Cfg) (s : State) (h : ReceiverInv c s)
    (hc : receiverCanStep s = true) :
    receiverPos c (stepReceiver c s) = receiverPos c s + 1 ∧
      senderPos c (stepReceiver c s) = senderPos c s := by
  obtain ⟨sr, rr, buf, time, spc, si, draws, rpc, ri, ts, te, ticks⟩ := s
  cases rpc <;> simp only [ReceiverInv, receiverCanStep, stepReceiver] at h hc ⊢
  · split_ifs <;> simp [senderPos, receiverPos]
  · simp [hc, senderPos, receiverPos]; try omega
  · simp [senderPos, receiverPos]; try omega
  · simp [senderPos, receiverPos]; try omega
  · split_ifs with hj
    · simp [senderPos, receiverPos]; try omega
    · simp [senderPos, receiverPos]; try omega
  · simp [senderPos, receiverPos]; try omega
  · simp [senderPos, receiverPos]; try omega
  · simp [senderPos, receiverPos, Nat.add_mul]; try omega
  · simp at hc

/-- The sender's step count stays below `senderSteps` while it is in its loop and
equals it once the loop is left. -/
theorem senderPos_bound (c : Cfg) (s : State) (h : SenderInv c s) :
    (s.spc = SPc.done → senderPos c s = senderSteps c.iterations c.words) ∧
    (s.spc ≠ SPc.done → senderPos c s < senderSteps c.iterations c.words) := by
  obtain ⟨sr, rr, buf, time, spc, si, draws, rpc, ri, ts, te, ticks⟩ := s
  cases spc <;> simp only [SenderInv] at h <;>
    simp only [senderPos, senderSteps, Cfg.iterations, ne_eq, not_true_eq_false,
      not_false_eq_true, false_implies, true_implies, and_true, true_and, reduceCtorEq]
  · have hle : si ≤ c.nr_sample.toNat := by omega
    have := Nat.mul_le_mul_right (c.words + 5) hle
    omega
  · have hle : si + 1 ≤ c.nr_sample.toNat := by omega
    have := Nat.mul_le_mul_right (c.words + 5) hle
    rw [Nat.add_mul] at this
    omega
  · have hle : si + 1 ≤ c.nr_sample.toNat := by omega
    have := Nat.mul_le_mul_right (c.words + 5) hle
    rw [Nat.add_mul] at this
    omega
  · have hle : si + 1 ≤ c.nr_sample.toNat := by omega
    have := Nat.mul_le_mul_right (c.words + 5) hle
    rw [Nat.add_mul] at this
    omega
  · have hle : si + 1 ≤ c.nr_sample.toNat := by omega
    have := Nat.mul_le_mul_right (c.words + 5) hle
    rw [Nat.add_mul] at this
    omega
  · have he : si = c.nr_sample.toNat := by omega
    rw [he]

/-- The receiver's step count stays below `receiverSteps` while it is in its loop and
equals it once the loop is left. -/
theorem receiverPos_bound (c : Cfg) (s : State) (h : ReceiverInv c s) :
    (s.rpc = RPc.done → receiverPos c s = receiverSteps c.iterations c.words) ∧
    (s.rpc ≠ RPc.done → receiverPos c s < receiverSteps c.iterations c.words) := by
  obtain ⟨sr, rr, buf, time, spc, si, draws, rpc, ri, ts, te, ticks⟩ := s
  cases rpc <;> simp only [ReceiverInv] at h <;>
    simp only [receiverPos, receiverSteps, Cfg.iterations, ne_eq, not_true_eq_false,
      not_false_eq_true, false_implies, true_implies, and_true, true_and, reduceCtorEq]
  case loop =>
    have hle : ri ≤ c.nr_sample.toNat := by omega
    have := Nat.mul_le_mul_right (c.words + 8) hle
    omega
  case done =>
    have he : ri = c.nr_sample.toNat := by omega
    rw [he]
  all_goals
    have hle : ri + 1 ≤ c.nr_sample.toNat := by omega
    have := Nat.mul_le_mul_right (c.words + 8) hle
    rw [Nat.add_mul] at this
    omega

theorem inv_run (c : Cfg) (sched : List Tid) : ∀ s : State, Inv c s → Inv c (run c sched s) := by
  induction sched with
  | nil => intro s h; exact h
  | cons t rest ih => intro s h; exact ih _ (inv_step c t s h)

/-- From a state of the invariant, the greedy schedule run for the steps that are left
ends with both loops left. -/
theorem greedy_finishes (c : Cfg) : ∀ (k : Nat) (s : State), Inv c s →
    senderPos c s + receiverPos c s + k = totalSteps c →
    (run c (greedySched c k s) s).spc = SPc.done ∧
      (run c (greedySched c k s) s).rpc = RPc.done := by
  intro k
  induction k with
  | zero =>
    intro s h hk
    have hs := senderPos_bound c s h.2.1
    have hr := receiverPos_bound c s h.2.2
    simp only [greedySched, run]
    unfold totalSteps at hk
    by_cases h1 : s.spc = SPc.done
    · by_cases h2 : s.rpc = RPc.done
      · exact ⟨h1, h2⟩
      · have := hs.1 h1
        have := hr.2 h2
        omega
    · have := hs.2 h1
      by_cases h2 : s.rpc = RPc.done
      · have := hr.1 h2
        omega
      · have := hr.2 h2
        omega
  | succ k ih =>
    intro s h hk
    have hs := senderPos_bound c s h.2.1
    have hr := receiverPos_bound c s h.2.2
    have hnd : s.spc ≠ SPc.done ∨ s.rpc ≠ RPc.done := by
      by_contra hcon
      push_neg at hcon
      have := hs.1 hcon.1
      have := hr.1 hcon.2
      unfold totalSteps at hk
      omega
    have hcan := canStep_of_inv c s h hnd
    have hstep : senderPos c (step c (pick s) s) + receiverPos c (step c (pick s) s)
        = senderPos c s + receiverPos c s + 1 := by
      unfold pick
      by_cases hc : senderCanStep s = true
      · have := senderPos_stepSender c s h.2.1 hc
        simp only [hc, if_true, step]
        omega
      · have hc' : receiverCanStep s = true := by
          rcases hcan with h' | h'
          · exact absurd h' hc
          · exact h'
        have := receiverPos_stepReceiver c s h.2.2 hc'
        have hf : senderCanStep s = false := by simpa using hc
        simp only [hf, step]
        simp only [Bool.false_eq_true, if_false]
        omega
    have := ih (step c (pick s) s) (inv_step c _ s h) (by omega)
    simpa [greedySched, run] using this

/-- From every state of the invariant some schedule leads both threads out of their
loops. -/
theorem exists_run_done (c : Cfg) (s : State) (h : Inv c s) :
    ∃ sched, (run c sched s).spc = SPc.done ∧ (run c sched s).rpc = RPc.done := by
  have hs := senderPos_bound c s h.2.1
  have hr := receiverPos_bound c s h.2.2
  have hle : senderPos c s + receiverPos c s ≤ totalSteps c := by
    unfold totalSteps
    by_cases h1 : s.spc = SPc.done
    · have := hs.1 h1
      by_cases h2 : s.rpc = RPc.done
      · have := hr.1 h2; omega
      · have := hr.2 h2; omega
    · have := hs.2 h1
      by_cases h2 : s.rpc = RPc.done
      · have := hr.1 h2; omega
      · have := hr.2 h2; omega
  exact ⟨greedySched c (totalSteps c - (senderPos c s + receiverPos c s)) s,
    greedy_finishes c _ s h (by omega)⟩

theorem time_length_le (c : Cfg) (s : State) (h : ReceiverInv c s) (hn : 0 ≤ c.nr_sample) :
    (s.time.length : Int) ≤ c.nr_sample := by
  obtain ⟨sr, rr, buf, time, spc, si, draws, rpc, ri, ts, te, ticks⟩ := s
  cases rpc <;> simp only [ReceiverInv] at h <;>
    simp only [h.1, h.2.1, samples_length] <;> push_cast <;> omega

/-! ### The handshake: the claims -/

/-- C2: in every reachable state in which the receiver is inside the read loop of its
iteration `i` (line 74), the sender is at its spin on `receiver_ready` of the same
iteration `i` (line 53), so it has finished the fill loop of iteration `i` and not
started the next one, and every word of the buffer holds the value the sender drew for
that word in iteration `i`. -/
theorem read_sees_payload (c : Cfg) (s : State) (h : Reachable c s) (j : Nat)
    (hr : s.rpc = RPc.read j) :
    s.spc = SPc.wait ∧ s.si = s.ri ∧
      ∀ k, k < c.words → s.buffer k = c.rng (s.ri * c.words + k) := by
  obtain ⟨h1, h2, -⟩ := inv_of_reachable h
  obtain ⟨sr, rr, buf, time, spc, si, draws, rpc, ri, ts, te, ticks⟩ := s
  simp only at hr
  subst hr
  cases spc <;> simp only [LinkInv, SenderInv, RPc.isIdle, RPc.isBusy] at h1 h2 <;>
    simp_all

/-- Witness of `read_sees_payload`: the receiver of `demoCfg` in its read loop after
`demoSched`. -/
theorem read_sees_payload_witness :
    Reachable demoCfg (run demoCfg demoSched (init demoCfg)) ∧
    (run demoCfg demoSched (init demoCfg)).rpc = RPc.read 0 ∧
    ((run demoCfg demoSched (init demoCfg)).spc = SPc.wait ∧
      (run demoCfg demoSched (init demoCfg)).si = (run demoCfg demoSched (init demoCfg)).ri ∧
      ∀ k, k < demoCfg.words → (run demoCfg demoSched (init demoCfg)).buffer k
        = demoCfg.rng ((run demoCfg demoSched (init demoCfg)).ri * demoCfg.words + k)) :=
  ⟨reachable_run demoCfg demoSched _ Reachable.init, by decide,
    read_sees_payload demoCfg _ (reachable_run demoCfg demoSched _ Reachable.init) 0
      (by decide)⟩

/-- C3: for a positive `nr_sample`, in every reachable state in which the receiver has
left its loop `task.time` has exactly `nr_sample` elements; no reachable state has
more; and from every reachable state some schedule leads the receiver out of its
loop. -/
theorem time_length_on_completion (c : Cfg) (hn : 0 < c.nr_sample) :
    (∀ s, Reachable c s → s.rpc = RPc.done → (s.time.length : Int) = c.nr_sample) ∧
    (∀ s, Reachable c s → (s.time.length : Int) ≤ c.nr_sample) ∧
    (∀ s, Reachable c s → ∃ sched, (run c sched s).rpc = RPc.done) := by
  refine ⟨?_, ?_, ?_⟩
  · intro s hs hd
    obtain ⟨-, -, h3⟩ := inv_of_reachable hs
    obtain ⟨sr, rr, buf, time, spc, si, draws, rpc, ri, ts, te, ticks⟩ := s
    simp only at hd
    subst hd
    simp only [ReceiverInv] at h3
    simp only [h3.1, samples_length]
    omega
  · intro s hs
    exact time_length_le c s (inv_of_reachable hs).2.2 (le_of_lt hn)
  · intro s hs
    obtain ⟨sched, -, h⟩ := exists_run_done c s (inv_of_reachable hs)
    exact ⟨sched, h⟩

/-- Witness of `time_length_on_completion` on `demoCfg`. -/
theorem time_length_on_completion_witness :
    (0 : Int) < demoCfg.nr_sample ∧
    ((∀ s, Reachable demoCfg s → s.rpc = RPc.done →
        (s.time.length : Int) = demoCfg.nr_sample) ∧
     (∀ s, Reachable demoCfg s → (s.time.length : Int) ≤ demoCfg.nr_sample) ∧
     (∀ s, Reachable demoCfg s → ∃ sched, (run demoCfg sched s).rpc = RPc.done)) :=
  ⟨by decide, time_length_on_completion demoCfg (by decide)⟩

/-- C10: with `nr_sample >= 0`, in every reachable state in which a thread is still in
its loop one of the two threads can take a step that is not a failed spin; in every
reachable state in which both have left their loops each counter `i` equals `nr_sample`
and both flags are false; and from every reachable state some schedule leads both
threads out of their loops. -/
theorem handshake_no_deadlock (c : Cfg) (hn : 0 ≤ c.nr_sample) (s : State)
    (h : Reachable c s) :
    ((s.spc ≠ SPc.done ∨ s.rpc ≠ RPc.done) →
        senderCanStep s = true ∨ receiverCanStep s = true) ∧
    (s.spc = SPc.done ∧ s.rpc = RPc.done →
        (s.si : Int) = c.nr_sample ∧ (s.ri : Int) = c.nr_sample ∧
          s.sender_ready = false ∧ s.receiver_ready = false) ∧
    (∃ sched, (run c sched s).spc = SPc.done ∧ (run c sched s).rpc = RPc.done) := by
  have hinv := inv_of_reachable h
  refine ⟨canStep_of_inv c s hinv, ?_, exists_run_done c s hinv⟩
  rintro ⟨hs, hr⟩
  obtain ⟨h1, h2, h3⟩ := hinv
  obtain ⟨sr, rr, buf, time, spc, si, draws, rpc, ri, ts, te, ticks⟩ := s
  simp only at hs hr
  subst hs hr
  simp only [LinkInv, SenderInv, ReceiverInv] at h1 h2 h3
  simp only
  refine ⟨by omega, by omega, h1.2.2.1, h1.2.2.2⟩

/-- Witness of `handshake_no_deadlock`: `demoCfg` in the state after `demoSched`. -/
theorem handshake_no_deadlock_witness :
    (0 : Int) ≤ demoCfg.nr_sample ∧
    Reachable demoCfg (run demoCfg demoSched (init demoCfg)) ∧
    (((run demoCfg demoSched (init demoCfg)).spc ≠ SPc.done ∨
        (run demoCfg demoSched (init demoCfg)).rpc ≠ RPc.done →
      senderCanStep (run demoCfg demoSched (init demoCfg)) = true ∨
        receiverCanStep (run demoCfg demoSched (init demoCfg)) = true) ∧
     ((run demoCfg demoSched (init demoCfg)).spc = SPc.done ∧
        (run demoCfg demoSched (init demoCfg)).rpc = RPc.done →
      ((run demoCfg demoSched (init demoCfg)).si : Int) = demoCfg.nr_sample ∧
        ((run demoCfg demoSched (init demoCfg)).ri : Int) = demoCfg.nr_sample ∧
        (run demoCfg demoSched (init demoCfg)).sender_ready = false ∧
        (run demoCfg demoSched (init demoCfg)).receiver_ready = false) ∧
     (∃ sched, (run demoCfg sched (run demoCfg demoSched (init demoCfg))).spc = SPc.done ∧
        (run demoCfg sched (run demoCfg demoSched (init demoCfg))).rpc = RPc.done)) :=
  ⟨by decide, reachable_run demoCfg demoSched _ Reachable.init,
    handshake_no_deadlock demoCfg (by decide) _
      (reachable_run demoCfg demoSched _ Reachable.init)⟩

/-! ### The argument scan: the claims -/

theorem toSizeT_natCast (v : Nat) (hv : v < 2 ^ 31) : toSizeT (v : Int) = v := by
  unfold toSizeT
  omega

/-- The scan of flag/value pairs with values within `int`, from the initial values. -/
theorem foldl_scanStep_pairs (pairs : List (String × Nat)) (h : ∀ p ∈ pairs, p.2 < 2 ^ 31) :
    pairs.foldl (fun acc p => scanStep acc p.1 (toString p.2)) Conf.initial =
      { src := lastValue "-s" pairs (-1), dst := lastValue "-d" pairs (-1),
        warm_up_sec := lastValue "-w" pairs 5, nr_sample := lastValue "-ns" pairs 1000,
        bulk_size := (lastValue "-sz" pairs 8192).toNat } := by
  induction pairs using List.reverseRecOn with
  | nil => simp [lastValue, Conf.initial]
  | append_singleton ps p ih =>
    have hp : p.2 < 2 ^ 31 := h p (by simp)
    rw [List.foldl_append, ih (fun q hq => h q (by simp [hq]))]
    simp only [List.foldl_cons, List.foldl_nil, lastValue_append, scanStep,
      atoi_toString p.2 hp, toSizeT_natCast p.2 hp]
    by_cases h1 : p.1 = "-s"
    · simp [h1]
    · by_cases h2 : p.1 = "-d"
      · simp [h2]
      · by_cases h3 : p.1 = "-sz"
        · simp [h3]
        · by_cases h4 : p.1 = "-w"
          · simp [h4]
          · by_cases h5 : p.1 = "-ns"
            · simp [h5]
            · simp [h1, h2, h3, h4, h5]

/-- C7, the code at `-s 0 -d 1 -ns 0`: `main` does not reject the configuration but
invokes `measure_bw` with `nr_sample = 0`; with that count no reachable state of the
two loops holds a sample; and the reduction of the empty sample sequence is a division
by zero, which has no result. -/
theorem main_ns_zero_divides_by_zero :
    main ["c2cbw", "-s", "0", "-d", "1", "-ns", "0"] =
      Outcome.measure
        { src := 0, dst := 1, warm_up_sec := 5, nr_sample := 0, bulk_size := 8192 } ∧
    (∀ (c : Cfg) (s : State), c.nr_sample = 0 → Reachable c s → s.time = []) ∧
    measure_bw_reduce [] = none := by
  refine ⟨by decide, ?_, by decide⟩
  intro c s hc hs
  have := time_length_le c s (inv_of_reachable hs).2.2 (by omega)
  rw [hc] at this
  have h0 : s.time.length = 0 := by omega
  exact List.length_eq_zero.mp h0

/-- C8: when `-s` or `-d` is not among the arguments, `main` takes the usage branch:
the usage line is printed, the exit status is `EXIT_FAILURE`, which is not zero, and
`measure_bw` is not invoked. -/
theorem main_usage_of_missing_flag (argv : List String)
    (h : "-s" ∉ argv.tail ∨ "-d" ∉ argv.tail) :
    main argv = Outcome.usage usageLine EXIT_FAILURE ∧ EXIT_FAILURE ≠ 0 ∧
      ∀ conf, main argv ≠ Outcome.measure conf := by
  have hm : main argv = Outcome.usage usageLine EXIT_FAILURE := by
    unfold main
    have hsd : (scan argv.tail Conf.initial).src = -1 ∨
        (scan argv.tail Conf.initial).dst = -1 := by
      rcases h with h | h
      · exact Or.inl (scan_src_of_not_mem argv.tail Conf.initial h)
      · exact Or.inr (scan_dst_of_not_mem argv.tail Conf.initial h)
    simp only [hsd, if_true]
  refine ⟨hm, by decide, ?_⟩
  intro conf
  rw [hm]
  simp

/-- Witness of `main_usage_of_missing_flag` on the command line `c2cbw -s 0`. -/
theorem main_usage_of_missing_flag_witness :
    ("-s" ∉ (["c2cbw", "-s", "0"] : List String).tail ∨
      "-d" ∉ (["c2cbw", "-s", "0"] : List String).tail) ∧
    (main ["c2cbw", "-s", "0"] = Outcome.usage usageLine EXIT_FAILURE ∧ EXIT_FAILURE ≠ 0 ∧
      ∀ conf, main ["c2cbw", "-s", "0"] ≠ Outcome.measure conf) :=
  ⟨Or.inr (by decide), main_usage_of_missing_flag ["c2cbw", "-s", "0"] (Or.inr (by decide))⟩

/-- C9 as stated fails: for `-s 0 -d 1 -ns 2147483648` the value that follows `-ns` is
2147483648, and the scan leaves `nr_sample`, an `int`, at -2147483648. -/
theorem scan_ns_exceeds_int :
    lastValue "-ns" [("-s", 0), ("-d", 1), ("-ns", 2147483648)] 1000 = 2147483648 ∧
    (scan (argvOfPairs "c2cbw" [("-s", 0), ("-d", 1), ("-ns", 2147483648)]).tail
        Conf.initial).nr_sample = -2147483648 := by
  decide

/-- C9 amended: for every argument list made of flag/value pairs whose values are
decimal naturals within `int` (below 2^31), the scan of `main` leaves `bulk_size`,
`warm_up_sec` and `nr_sample` at the value that follows the last occurrence of `-sz`,
`-w` and `-ns`, or at the defaults 8192, 5 and 1000 when the flag is absent, and `src`
and `dst` at the value that follows the last `-s` and `-d` (at -1 when absent). -/
theorem scan_pairs_last_values (prog : String) (pairs : List (String × Nat))
    (h : ∀ p ∈ pairs, p.2 < 2 ^ 31) :
    scan (argvOfPairs prog pairs).tail Conf.initial =
      { src := lastValue "-s" pairs (-1), dst := lastValue "-d" pairs (-1),
        warm_up_sec := lastValue "-w" pairs 5, nr_sample := lastValue "-ns" pairs 1000,
        bulk_size := (lastValue "-sz" pairs 8192).toNat } := by
  simp only [argvOfPairs, List.tail_cons]
  rw [scan_pairs, foldl_scanStep_pairs pairs h]

/-- Witness of `scan_pairs_last_values` on `c2cbw -s 0 -d 1 -ns 7 -ns 9`. -/
theorem scan_pairs_last_values_witness :
    (∀ p ∈ ([("-s", 0), ("-d", 1), ("-ns", 7), ("-ns", 9)] : List (String × Nat)),
      p.2 < 2 ^ 31) ∧
    scan (argvOfPairs "c2cbw" [("-s", 0), ("-d", 1), ("-ns", 7), ("-ns", 9)]).tail
        Conf.initial =
      { src := lastValue "-s" [("-s", 0), ("-d", 1), ("-ns", 7), ("-ns", 9)] (-1),
        dst := lastValue "-d" [("-s", 0), ("-d", 1), ("-ns", 7), ("-ns", 9)] (-1),
        warm_up_sec := lastValue "-w" [("-s", 0), ("-d", 1), ("-ns", 7), ("-ns", 9)] 5,
        nr_sample := lastValue "-ns" [("-s", 0), ("-d", 1), ("-ns", 7), ("-ns", 9)] 1000,
        bulk_size :=
          (lastValue "-sz" [("-s", 0), ("-d", 1), ("-ns", 7), ("-ns", 9)] 8192).toNat } :=
  ⟨by decide, scan_pairs_last_values "c2cbw" _ (by decide)⟩

end C2cbw
